import Mathlib

/-!
Verification of the scg-database contract set (hbttundar/scg-database).

The repository ships the contract surface (`contract.Connection`,
`contract.Repository`, `contract.QueryBuilder`, `contract.Migrator`,
`contract.Cache`) whose behavioural obligations are fixed by the project
specification.  The adapter implementations live outside the packaged
sources, so the behaviour under test is modelled here directly from the
specification's words and verified against the properties it states.
-/

namespace SCG

/-- Error kinds of the abstraction layer (spec section 7): not-found,
constraint/engine pass-through, migration step underflow, close failure,
and opaque callback errors identified by a code so that propagation
"unchanged" is observable. -/
inductive Err where
  | notFound
  | constraint
  | tooFewApplied
  | closeFailed
  | cbError (code : Nat)
deriving DecidableEq, Repr

/-- A persisted record: identity, two payload fields, and the nullable
soft-delete marker described in the spec's data model (section 3,
"Model": identity, table binding, soft-delete timestamp). -/
structure URec where
  id : Nat
  name : String
  email : String
  deletedAt : Option Nat
deriving DecidableEq, Repr

/-- Modelled from the spec: `Connection.Transaction(ctx, fn)` of the
adapter (only the `contract.Connection` interface is in the sources).
"Brackets `fn` in one atomic unit: any error returned by `fn` triggers
rollback and that error is propagated to the caller unchanged; `fn`
returning nil commits."  The state is passed explicitly; rollback means
the pre-call state is returned. -/
def Transaction {σ ε : Type} (s : σ) (fn : σ → Except ε σ) : σ × Option ε :=
  match fn s with
  | .error e => (s, some e)
  | .ok s' => (s', none)

/-- Modelled from the spec: default-scoped `Find` by primary key.  "Unless
`Unscoped` was called, every compiled read query implicitly adds exclude
rows where the delete marker is set"; a miss is the distinct not-found
error kind. -/
def findScoped (db : List URec) (i : Nat) : Except Err URec :=
  match db.find? (fun r => r.id == i && r.deletedAt == none) with
  | some r => .ok r
  | none => .error .notFound

/-- Modelled from the spec: `Unscoped().Find` by primary key — the
implicit soft-delete predicate is removed. -/
def findUnscoped (db : List URec) (i : Nat) : Except Err URec :=
  match db.find? (fun r => r.id == i) with
  | some r => .ok r
  | none => .error .notFound

/-- Modelled from the spec: `Repository.Delete` "performs a soft delete
(sets delete marker, does not remove the row)".  `now` is the timestamp
written into the marker. -/
def softDelete (db : List URec) (now : Nat) (i : Nat) : List URec :=
  db.map (fun r => if r.id == i then { r with deletedAt := some now } else r)

/-- C1: if the transaction callback fails, the state is rolled back to the
pre-call state (no record created inside the callback survives) and the
callback's error is propagated unchanged; if the callback succeeds, its
final state is committed. -/
theorem transaction_atomicity (db : List URec)
    (fn : List URec → Except Err (List URec)) :
    (∀ e, fn db = .error e →
      Transaction db fn = (db, some e) ∧
        ∀ r, r ∉ db → r ∉ (Transaction db fn).1) ∧
    (∀ db', fn db = .ok db' → Transaction db fn = (db', none)) := by
  constructor
  · intro e he
    constructor
    · simp [Transaction, he]
    · intro r hr
      simp [Transaction, he]
      exact hr
  · intro db' h
    simp [Transaction, h]

/-- Witness for C1: a callback that inserts a record and then fails is
rolled back with its error intact; the committing case commits. -/
theorem transaction_atomicity_witness :
    Transaction ([] : List URec) (fun db =>
        if (db ++ [(⟨1, "a", "a@x", none⟩ : URec)]).length = 1
        then .error (Err.cbError 7) else .ok db) =
      ([], some (Err.cbError 7)) ∧
    (⟨1, "a", "a@x", none⟩ : URec) ∉
      (Transaction ([] : List URec) (fun db =>
        if (db ++ [(⟨1, "a", "a@x", none⟩ : URec)]).length = 1
        then .error (Err.cbError 7) else .ok db)).1 := by
  have h := transaction_atomicity []
    (fun db => if (db ++ [(⟨1, "a", "a@x", none⟩ : URec)]).length = 1
        then .error (Err.cbError 7) else .ok db)
  refine ⟨(h.1 (Err.cbError 7) (by rfl)).1, ?_⟩
  exact (h.1 (Err.cbError 7) (by rfl)).2 ⟨1, "a", "a@x", none⟩ (by decide)

/-- After the soft delete, the unscoped lookup still finds a row with the
requested id and its marker set. -/
lemma softDelete_find_unscoped (db : List URec) (now i : Nat)
    (h : ∃ r ∈ db, r.id = i) :
    ∃ r', (softDelete db now i).find? (fun r => r.id == i) = some r' ∧
      r'.id = i ∧ r'.deletedAt = some now := by
  induction db with
  | nil => rcases h with ⟨r, hr, _⟩; cases hr
  | cons a t ih =>
    by_cases ha : a.id = i
    · refine ⟨{ a with deletedAt := some now }, ?_, ha, rfl⟩
      simp [softDelete, ha]
    · have h' : ∃ r ∈ t, r.id = i := by
        rcases h with ⟨r, hr, hri⟩
        rcases List.mem_cons.mp hr with rfl | hrt
        · exact absurd hri ha
        · exact ⟨r, hrt, hri⟩
      rcases ih h' with ⟨r', hfind, hid, hdel⟩
      refine ⟨r', ?_, hid, hdel⟩
      simpa [softDelete, ha] using hfind

/-- After the soft delete, the default-scoped lookup finds nothing. -/
lemma softDelete_find_scoped_none (db : List URec) (now i : Nat) :
    (softDelete db now i).find?
      (fun r => r.id == i && r.deletedAt == none) = none := by
  induction db with
  | nil => simp [softDelete]
  | cons a t ih =>
    by_cases ha : a.id = i
    · simpa [softDelete, ha] using ih
    · simpa [softDelete, ha] using ih

/-- C2: after a soft `Delete` of a persisted record, a default-scoped
`Find` by its id reports not-found, an unscoped `Find` returns a row with
that id whose delete marker is set, and the table keeps its row count
(the row is not physically removed). -/
theorem soft_delete_visibility (db : List URec) (r : URec) (now i : Nat)
    (hmem : r ∈ db) (hid : r.id = i) :
    findScoped (softDelete db now i) i = .error .notFound ∧
    (∃ r', findUnscoped (softDelete db now i) i = .ok r' ∧
      r'.id = i ∧ r'.deletedAt = some now) ∧
    (softDelete db now i).length = db.length := by
  refine ⟨?_, ?_, by simp [softDelete]⟩
  · simp [findScoped, softDelete_find_scoped_none]
  · rcases softDelete_find_unscoped db now i ⟨r, hmem, hid⟩
      with ⟨r', hfind, hid', hdel⟩
    exact ⟨r', by simp [findUnscoped, hfind], hid', hdel⟩

/-- Witness for C2: deleting record 1 from a two-row table hides it from
the scoped find, keeps it findable unscoped with the marker set, and
keeps both rows. -/
theorem soft_delete_visibility_witness :
    findScoped (softDelete [⟨1, "a", "a@x", none⟩, ⟨2, "b", "b@x", none⟩] 5 1) 1
        = .error .notFound ∧
    (∃ r', findUnscoped
        (softDelete [⟨1, "a", "a@x", none⟩, ⟨2, "b", "b@x", none⟩] 5 1) 1
          = .ok r' ∧ r'.id = 1 ∧ r'.deletedAt = some 5) ∧
    (softDelete [⟨1, "a", "a@x", none⟩, ⟨2, "b", "b@x", none⟩] 5 1).length
        = ([⟨1, "a", "a@x", none⟩, ⟨2, "b", "b@x", none⟩] : List URec).length :=
  soft_delete_visibility [⟨1, "a", "a@x", none⟩, ⟨2, "b", "b@x", none⟩]
    ⟨1, "a", "a@x", none⟩ 5 1 (by decide) rfl

/-- An operation issued against the migrator: `Up` or `Down(steps)`. -/
inductive MigOp where
  | up
  | down (steps : Nat)
deriving DecidableEq, Repr

/-- The applied set is a contiguous prefix of the total version order:
exactly the first `applied.length` versions, in order. -/
def AppliedOk (versions applied : List Nat) : Prop :=
  applied = versions.take applied.length

/-- Modelled from the spec: `Migrator.Up` (only the `contract.Migrator`
interface is in the sources).  "Applies all Pending versions in ascending
order": the versions beyond the applied prefix are appended in the order
of the total version list. -/
def migUp (versions applied : List Nat) : List Nat :=
  applied ++ versions.drop applied.length

/-- Modelled from the spec: `Migrator.Down(steps)` "reverts the `steps`
most-recently-Applied versions in descending order"; requesting more
steps than are applied fails rather than reverting non-existent state. -/
def migDown (applied : List Nat) (steps : Nat) : Except Err (List Nat) :=
  if applied.length < steps then .error .tooFewApplied
  else .ok (applied.take (applied.length - steps))

/-- One migrator call: a failed `Down` leaves the applied state unchanged. -/
def migStep (versions applied : List Nat) : MigOp → List Nat
  | .up => migUp versions applied
  | .down n =>
    match migDown applied n with
    | .ok applied' => applied'
    | .error _ => applied

/-- A whole call sequence run from the empty applied state. -/
def migRun (versions : List Nat) (ops : List MigOp) : List Nat :=
  ops.foldl (migStep versions) []

/-- A single migrator call preserves the contiguous-prefix invariant. -/
lemma migStep_preserves (versions applied : List Nat) (op : MigOp)
    (h : AppliedOk versions applied) :
    AppliedOk versions (migStep versions applied op) := by
  have key : ∀ m, applied.take m = versions.take (min m applied.length) := by
    intro m
    conv_lhs => rw [h]
    rw [List.take_take]
  cases op with
  | up =>
    have hfull : migUp versions applied = versions := by
      unfold migUp
      nth_rewrite 1 [h]
      exact List.take_append_drop _ _
    simp only [migStep, hfull, AppliedOk]
    rw [List.take_length]
  | down n =>
    simp only [migStep, migDown]
    by_cases hlt : applied.length < n
    · simpa [hlt] using h
    · simp only [hlt, if_false]
      have hm : applied.length - n ≤ applied.length := Nat.sub_le _ _
      unfold AppliedOk
      rw [List.length_take, Nat.min_eq_left hm, key,
        Nat.min_eq_left hm]

/-- C3: from the empty applied state, every sequence of `Up`/`Down(n)`
calls keeps the applied versions a contiguous prefix of the total version
order; and a `Down(n)` whose `n` exceeds the applied count returns an
error and leaves the applied state untouched. -/
theorem migration_monotonicity (versions : List Nat) (ops : List MigOp) :
    AppliedOk versions (migRun versions ops) ∧
    (∀ applied n, applied.length < n →
      migDown applied n = .error .tooFewApplied ∧
      migStep versions applied (.down n) = applied) := by
  constructor
  · have hgen : ∀ (l : List MigOp) (applied : List Nat),
        AppliedOk versions applied →
        AppliedOk versions (l.foldl (migStep versions) applied) := by
      intro l
      induction l with
      | nil => intro applied h; exact h
      | cons op t ih =>
        intro applied h
        exact ih _ (migStep_preserves versions applied op h)
    exact hgen ops [] (by simp [AppliedOk])
  · intro applied n hlt
    constructor
    · simp [migDown, hlt]
    · simp [migStep, migDown, hlt]

/-- Witness for C3: running `Up` then `Down 2` over versions `[1, 2, 3]`
leaves a prefix, and `Down 1` on the empty applied state fails without
changing it. -/
theorem migration_monotonicity_witness :
    AppliedOk [1, 2, 3] (migRun [1, 2, 3] [.up, .down 2]) ∧
    migDown [] 1 = .error .tooFewApplied ∧
    migStep [1, 2, 3] [] (.down 1) = [] := by
  have h := migration_monotonicity [1, 2, 3] [.up, .down 2]
  exact ⟨h.1, (h.2 [] 1 (by decide)).1, (h.2 [] 1 (by decide)).2⟩

/-- Modelled from the spec: a single-row insert; the engine's uniqueness
rule on the primary key rejects a duplicate id with a constraint error
(spec section 8, batch partial-failure example). -/
def insertRec (db : List URec) (r : URec) : Except Err (List URec) :=
  if db.any (fun x => x.id == r.id) then .error .constraint
  else .ok (db ++ [r])

/-- Sequential insert of a list of rows, stopping at the first engine
error; used both for one chunk and, below, for a chunk sequence. -/
def insertAll (db : List URec) (rs : List URec) : Except Err (List URec) :=
  match rs with
  | [] => .ok db
  | r :: rest =>
    match insertRec db r with
    | .error e => .error e
    | .ok db' => insertAll db' rest

/-- Chunking loop with explicit fuel (any fuel at least the list length
gives the chunk decomposition); structural recursion keeps it computable
by the kernel. -/
def chunksGo {α : Type} (b : Nat) : Nat → List α → List (List α)
  | _, [] => []
  | 0, l => [l]
  | f + 1, x :: xs =>
    if b = 0 then [x :: xs]
    else (x :: xs).take b :: chunksGo b f ((x :: xs).drop b)

/-- Modelled from the spec: `CreateInBatches` "partitions the given slice
into chunks of the given size" — consecutive chunks, in order. -/
def chunks {α : Type} (b : Nat) (l : List α) : List (List α) :=
  chunksGo b l.length l

/-- Modelled from the spec: the chunk loop of `CreateInBatches` — one
atomic insert per chunk in order; a chunk failure stops the loop, leaves
the chunks already committed in place (no implicit rollback) and reports
the error. -/
def processChunks (db : List URec) (cs : List (List URec)) :
    List URec × Option Err :=
  match cs with
  | [] => (db, none)
  | c :: rest =>
    match insertAll db c with
    | .error e => (db, some e)
    | .ok db' => processChunks db' rest

/-- Modelled from the spec: `Repository.CreateInBatches(ctx, models,
batchSize)`. -/
def createInBatches (db models : List URec) (b : Nat) :
    List URec × Option Err :=
  processChunks db (chunks b models)

/-- `CreateInBatches` wrapped by the caller in `Transaction`: a failure
then persists nothing. -/
def createInBatchesTx (db models : List URec) (b : Nat) :
    List URec × Option Err :=
  Transaction db (fun d =>
    match createInBatches d models b with
    | (d', none) => .ok d'
    | (_, some e) => .error e)

/-- All-or-stop sequential insertion of whole chunks, used to state that
a failed run committed exactly its successful chunk prefix. -/
def seqInsert (db : List URec) (cs : List (List URec)) :
    Except Err (List URec) :=
  match cs with
  | [] => .ok db
  | c :: rest =>
    match insertAll db c with
    | .error e => .error e
    | .ok db' => seqInsert db' rest

/-- With enough fuel, joining the chunks gives back the original slice. -/
lemma chunksGo_join {α : Type} (b : Nat) (hb : b ≠ 0) :
    ∀ (f : Nat) (l : List α), l.length ≤ f →
      (chunksGo b f l).flatten = l := by
  intro f
  induction f with
  | zero =>
    intro l hl
    have : l = [] := List.eq_nil_of_length_eq_zero (Nat.le_zero.mp hl)
    subst this
    simp [chunksGo]
  | succ f ih =>
    intro l hl
    cases l with
    | nil => simp [chunksGo]
    | cons x xs =>
      have hlen : ((x :: xs).drop b).length ≤ f := by
        simp only [List.length_drop, List.length_cons] at *
        omega
      simp only [chunksGo]
      rw [if_neg hb, List.flatten_cons, ih _ hlen]
      exact List.take_append_drop b (x :: xs)

/-- Joining the chunks gives back the original slice. -/
lemma chunks_flat {α : Type} (b : Nat) (hb : 0 < b) (l : List α) :
    (chunks b l).flatten = l :=
  chunksGo_join b (Nat.pos_iff_ne_zero.mp hb) l.length l (Nat.le_refl _)

/-- With enough fuel, every chunk is nonempty and no longer than the
batch size. -/
lemma chunksGo_sizes {α : Type} (b : Nat) (hb : b ≠ 0) :
    ∀ (f : Nat) (l : List α), l.length ≤ f →
      ∀ c ∈ chunksGo b f l, c ≠ [] ∧ c.length ≤ b := by
  intro f
  induction f with
  | zero =>
    intro l hl
    have : l = [] := List.eq_nil_of_length_eq_zero (Nat.le_zero.mp hl)
    subst this
    simp [chunksGo]
  | succ f ih =>
    intro l hl
    cases l with
    | nil => simp [chunksGo]
    | cons x xs =>
      have hlen : ((x :: xs).drop b).length ≤ f := by
        simp only [List.length_drop, List.length_cons] at *
        omega
      simp only [chunksGo]
      rw [if_neg hb]
      intro c hc
      rcases List.mem_cons.mp hc with rfl | hc'
      · constructor
        · intro hnil
          rcases List.take_eq_nil_iff.mp hnil with h0 | h0
          · exact hb h0
          · simp at h0
        · simp
      · exact ih _ hlen c hc'

/-- Every chunk is nonempty and no longer than the batch size. -/
lemma chunks_sizes {α : Type} (b : Nat) (l : List α) (hb : 0 < b) :
    ∀ c ∈ chunks b l, c ≠ [] ∧ c.length ≤ b :=
  chunksGo_sizes b (Nat.pos_iff_ne_zero.mp hb) l.length l (Nat.le_refl _)

/-- A clean run of the chunk loop commits every chunk in sequence. -/
lemma processChunks_ok (cs : List (List URec)) :
    ∀ db db', processChunks db cs = (db', none) →
      seqInsert db cs = .ok db' := by
  induction cs with
  | nil =>
    intro db db' h
    simp only [processChunks, Prod.mk.injEq] at h
    simp [seqInsert, h.1]
  | cons c rest ih =>
    intro db db' h
    simp only [processChunks] at h
    cases hc : insertAll db c with
    | error e => rw [hc] at h; simp at h
    | ok db1 =>
      rw [hc] at h
      simp only [seqInsert, hc]
      exact ih db1 db' h

/-- A failed run of the chunk loop has committed exactly the chunks
before the failing one, and the failing chunk fails on that state. -/
lemma processChunks_err (cs : List (List URec)) :
    ∀ db db' e, processChunks db cs = (db', some e) →
      ∃ k c rest, cs.drop k = c :: rest ∧
        seqInsert db (cs.take k) = .ok db' ∧
        insertAll db' c = .error e := by
  induction cs with
  | nil =>
    intro db db' e h
    simp [processChunks] at h
  | cons c rest ih =>
    intro db db' e h
    simp only [processChunks] at h
    cases hc : insertAll db c with
    | error e1 =>
      rw [hc] at h
      simp only [Prod.mk.injEq, Option.some.injEq] at h
      refine ⟨0, c, rest, rfl, ?_, ?_⟩
      · simp [seqInsert, h.1]
      · rw [← h.1, hc, h.2]
    | ok db1 =>
      rw [hc] at h
      rcases ih db1 db' e h with ⟨k, c1, rest1, hdrop, hseq, hfail⟩
      refine ⟨k + 1, c1, rest1, by simpa using hdrop, ?_, hfail⟩
      simp only [List.take_succ_cons, seqInsert, hc]
      exact hseq

/-- C4: with a positive batch size, `CreateInBatches` partitions the slice
into consecutive chunks of at most that size (joining them restores the
slice), inserts the chunks atomically in order; on success every chunk is
committed, and a failure at chunk K leaves exactly chunks 1..K-1
committed with the error reported — unless the caller wrapped the call in
a transaction, in which case nothing is persisted. -/
theorem create_in_batches_partial_failure (db models : List URec) (b : Nat)
    (hb : 0 < b) :
    (chunks b models).flatten = models ∧
    (∀ c ∈ chunks b models, c ≠ [] ∧ c.length ≤ b) ∧
    (∀ db', createInBatches db models b = (db', none) →
      seqInsert db (chunks b models) = .ok db' ∧
      createInBatchesTx db models b = (db', none)) ∧
    (∀ db' e, createInBatches db models b = (db', some e) →
      (∃ k c rest, (chunks b models).drop k = c :: rest ∧
        seqInsert db ((chunks b models).take k) = .ok db' ∧
        insertAll db' c = .error e) ∧
      createInBatchesTx db models b = (db, some e)) := by
  refine ⟨chunks_flat b hb models, chunks_sizes b models hb, ?_, ?_⟩
  · intro db' h
    refine ⟨processChunks_ok (chunks b models) db db' h, ?_⟩
    simp [createInBatchesTx, Transaction, h]
  · intro db' e h
    refine ⟨processChunks_err (chunks b models) db db' e h, ?_⟩
    simp [createInBatchesTx, Transaction, h]

/-- Witness for C4: batch size 2 over three rows whose third id repeats
the first — the second chunk fails, the first chunk stays committed, and
the transaction-wrapped call persists nothing. -/
theorem create_in_batches_partial_failure_witness :
    createInBatches [] [⟨1, "a", "a@x", none⟩, ⟨2, "b", "b@x", none⟩,
        ⟨1, "c", "c@x", none⟩] 2 =
      ([⟨1, "a", "a@x", none⟩, ⟨2, "b", "b@x", none⟩], some .constraint) ∧
    (∃ k c rest,
      (chunks 2 [(⟨1, "a", "a@x", none⟩ : URec), ⟨2, "b", "b@x", none⟩,
        ⟨1, "c", "c@x", none⟩]).drop k = c :: rest ∧
      seqInsert []
        ((chunks 2 [(⟨1, "a", "a@x", none⟩ : URec), ⟨2, "b", "b@x", none⟩,
          ⟨1, "c", "c@x", none⟩]).take k) =
        .ok [⟨1, "a", "a@x", none⟩, ⟨2, "b", "b@x", none⟩] ∧
      insertAll [⟨1, "a", "a@x", none⟩, ⟨2, "b", "b@x", none⟩] c =
        .error .constraint) ∧
    createInBatchesTx [] [⟨1, "a", "a@x", none⟩, ⟨2, "b", "b@x", none⟩,
        ⟨1, "c", "c@x", none⟩] 2 = ([], some .constraint) := by
  have h := create_in_batches_partial_failure []
    [⟨1, "a", "a@x", none⟩, ⟨2, "b", "b@x", none⟩, ⟨1, "c", "c@x", none⟩]
    2 (by decide)
  have hrun : createInBatches []
      [(⟨1, "a", "a@x", none⟩ : URec), ⟨2, "b", "b@x", none⟩,
        ⟨1, "c", "c@x", none⟩] 2 =
      ([⟨1, "a", "a@x", none⟩, ⟨2, "b", "b@x", none⟩], some .constraint) := by
    decide
  have h4 := h.2.2.2 [⟨1, "a", "a@x", none⟩, ⟨2, "b", "b@x", none⟩]
    .constraint hrun
  exact ⟨hrun, h4.1, h4.2⟩

/-- A child record of a HasMany relation: identity plus the foreign key
pointing at the owning parent row. -/
structure CRec where
  id : Nat
  parentId : Nat
deriving DecidableEq, Repr

/-- Description of one query issued to the engine: whether it is the
primary query, which eager-load relation (if any) it serves, and the
batched key set of its IN predicate (if any). -/
structure QueryDesc where
  primary : Bool
  relName : Option String
  inKeys : Option (List Nat)
deriving DecidableEq, Repr

/-- The distinct keys collected over all hydrated primary rows. -/
def collectKeys (ps : List URec) : List Nat :=
  (ps.map (fun p => p.id)).dedup

/-- Modelled from the spec: the one batched secondary query of a relation
— "a key IN (collected set) predicate" over the related table. -/
def secondaryFetch (tbl : List CRec) (keys : List Nat) : List CRec :=
  tbl.filter (fun c => keys.contains c.parentId)

/-- The primary query descriptor: defined with no reference to the
requested relation names, which are not compiled into it. -/
def primaryQuery : QueryDesc :=
  { primary := true, relName := none, inKeys := none }

/-- Modelled from the spec: `With(...)` followed by `Get` (the resolver
implementation is not in src).  After the primary rows `ps` are hydrated,
each requested relation triggers exactly one secondary query batched over
the collected keys, and its rows are distributed back onto the owning
parents by key equality.  Returns the hydrated result and the trace of
issued queries. -/
def eagerGet (ps : List URec) (rels : List (String × List CRec)) :
    List (URec × List (String × List CRec)) × List QueryDesc :=
  let keys := collectKeys ps
  let fetched := rels.map (fun nr => (nr.1, secondaryFetch nr.2 keys))
  (ps.map (fun p => (p, fetched.map (fun nf =>
      (nf.1, nf.2.filter (fun c => c.parentId == p.id))))),
   primaryQuery ::
     rels.map (fun nr =>
       { primary := false, relName := some nr.1, inKeys := some keys }))

/-- Distributing the batched secondary fetch back onto a hydrated parent
recovers exactly that parent's related rows. -/
lemma secondaryFetch_distribute (tbl : List CRec) (ps : List URec)
    (p : URec) (hp : p ∈ ps) :
    (secondaryFetch tbl (collectKeys ps)).filter
        (fun c => c.parentId == p.id) =
      tbl.filter (fun c => c.parentId == p.id) := by
  unfold secondaryFetch
  rw [List.filter_filter]
  apply List.filter_congr
  intro c _
  by_cases h : c.parentId = p.id
  · have hmem : p.id ∈ collectKeys ps := by
      unfold collectKeys
      rw [List.mem_dedup]
      exact List.mem_map.mpr ⟨p, hp, rfl⟩
    simp [h, hmem]
  · simp [h]

/-- C5: eager loading issues exactly one primary query plus one batched
secondary query per requested relation — independent of the number of
parent rows — the primary query descriptor mentions no relation name, and
every parent ends up with exactly its own related rows for every
requested relation. -/
theorem eager_load_batched (ps : List URec)
    (rels : List (String × List CRec)) :
    (eagerGet ps rels).2.length = 1 + rels.length ∧
    (eagerGet ps rels).2.head? = some primaryQuery ∧
    primaryQuery.relName = none ∧
    (eagerGet ps rels).1 =
      ps.map (fun p => (p, rels.map (fun nr =>
        (nr.1, nr.2.filter (fun c => c.parentId == p.id))))) := by
  refine ⟨by simp [eagerGet]; omega, rfl, rfl, ?_⟩
  simp only [eagerGet]
  apply List.map_congr_left
  intro p hp
  rw [List.map_map]
  refine congrArg (fun x => (p, x)) ?_
  apply List.map_congr_left
  intro nr _
  simp only [Function.comp]
  exact congrArg (fun x => (nr.1, x)) (secondaryFetch_distribute nr.2 ps p hp)

/-- A condition Model: its non-zero (here: set) fields form the lookup
predicate of `FirstOrCreate`. -/
structure Cond where
  name : Option String
  email : Option String
deriving DecidableEq, Repr

/-- A row matches the condition when every set condition field agrees. -/
def condMatches (c : Cond) (r : URec) : Bool :=
  (match c.name with
   | none => true
   | some n => r.name == n) &&
  (match c.email with
   | none => true
   | some m => r.email == m)

/-- The next generated identity: one past the largest id in the table. -/
def nextId (db : List URec) : Nat :=
  (db.map (fun r => r.id)).foldl max 0 + 1

/-- Modelled from the spec: the record constructed when the lookup
misses — "merging condition fields with any optional create-overrides";
condition fields take precedence so the created row satisfies its own
condition, with the override (then a zero value) filling the rest.  The
delete marker is left unset on create. -/
def mkFromCond (c ov : Cond) (i : Nat) : URec :=
  { id := i,
    name := c.name.getD (ov.name.getD ""),
    email := c.email.getD (ov.email.getD ""),
    deletedAt := none }

/-- Modelled from the spec: `Repository.FirstOrCreate(ctx, condition,
create...)` — "looks up by the condition Model's non-zero fields; if
absent, constructs and persists a new record".  The default scope applies
to the lookup. -/
def firstOrCreate (db : List URec) (c ov : Cond) : List URec × URec :=
  match db.find? (fun r => condMatches c r && r.deletedAt == none) with
  | some r => (db, r)
  | none =>
    let r := mkFromCond c ov (nextId db)
    (db ++ [r], r)

/-- The freshly constructed record satisfies its own condition. -/
lemma condMatches_mkFromCond (c ov : Cond) (i : Nat) :
    condMatches c (mkFromCond c ov i) = true := by
  unfold condMatches mkFromCond
  cases c.name with
  | none => cases c.email with
    | none => simp
    | some m => simp
  | some n => cases c.email with
    | none => simp
    | some m => simp

/-- C6: `FirstOrCreate` is idempotent — the second call with the same
condition finds what the first call found or created, returns the same
persisted record (same identity), changes nothing, and the first call
adds at most one row. -/
theorem first_or_create_idempotent (db : List URec) (c ov : Cond) :
    firstOrCreate (firstOrCreate db c ov).1 c ov = firstOrCreate db c ov ∧
    (firstOrCreate db c ov).1.length ≤ db.length + 1 := by
  unfold firstOrCreate
  cases hfind : db.find? (fun r => condMatches c r && r.deletedAt == none)
    with
  | some r =>
    simp only [hfind]
    have hmem := List.mem_of_find?_eq_some hfind
    exact ⟨by simp [hfind], by omega⟩
  | none =>
    simp only [hfind]
    have hpred : (fun r => condMatches c r && r.deletedAt == none)
        (mkFromCond c ov (nextId db)) = true := by
      show (condMatches c (mkFromCond c ov (nextId db)) &&
        ((mkFromCond c ov (nextId db)).deletedAt == none)) = true
      rw [condMatches_mkFromCond]
      rfl
    have hnew : (db ++ [mkFromCond c ov (nextId db)]).find?
        (fun r => condMatches c r && r.deletedAt == none) =
        some (mkFromCond c ov (nextId db)) := by
      rw [List.find?_append, hfind]
      show (List.find? (fun r => condMatches c r && r.deletedAt == none)
        [mkFromCond c ov (nextId db)]) = some (mkFromCond c ov (nextId db))
      rw [List.find?_cons_of_pos]
      exact hpred
    simp [hnew]

/-- One accumulated clause: condition text plus its bound arguments. -/
structure Clause where
  cond : String
  args : List Nat
deriving DecidableEq, Repr

/-- A live builder: heap indices of its where-clause and order-clause
slices (modelling the Go slice headers) plus scalar state. -/
structure QBRef where
  wherePtr : Nat
  orderPtr : Nat
  limit : Option Nat
  unscoped : Bool
deriving DecidableEq, Repr

/-- The mutable world the builders live in: a heap of clause slices
(indexed by pointer) and the builder records. -/
structure Store where
  heap : List (List Clause)
  builders : List QBRef
deriving DecidableEq, Repr

/-- Read a clause slice from the heap (empty when dangling). -/
def heapGet (h : List (List Clause)) (i : Nat) : List Clause :=
  (h[i]?).getD []

/-- Overwrite a clause slice in the heap. -/
def heapSet (h : List (List Clause)) (i : Nat) (v : List Clause) :
    List (List Clause) :=
  h.set i v

/-- Modelled from the spec: `QueryBuilder.Clone` (the builder
implementation is not in src) — "must produce a deep, independent copy
including all slices of clauses": fresh heap cells receive copies of the
source slices and the new builder record copies the scalar state. -/
def cloneRef (st : Store) (qb : QBRef) : QBRef :=
  { wherePtr := st.heap.length, orderPtr := st.heap.length + 1,
    limit := qb.limit, unscoped := qb.unscoped }

def cloneBuilder (st : Store) (a : Nat) : Store × Nat :=
  match st.builders[a]? with
  | none => (st, a)
  | some qb =>
    ({ heap := st.heap ++ [heapGet st.heap qb.wherePtr,
         heapGet st.heap qb.orderPtr],
       builders := st.builders ++ [cloneRef st qb] },
     st.builders.length)

/-- A builder call that changes builder state: clause additions, scalar
updates, and a terminal operation that consumes the clause state. -/
inductive QBOp where
  | addWhere (c : Clause)
  | addOrder (c : Clause)
  | setLimit (n : Nat)
  | unscope
  | terminal
deriving DecidableEq, Repr

/-- Modelled from the spec: in-place mutation of one builder — clause
calls append to the builder's slices, scalar calls update its record, and
a terminal operation consumes the accumulated clause state (reset), per
the contract that a terminal compiles and then the state is consumed. -/
def applyOp (st : Store) (bid : Nat) : QBOp → Store
  | .addWhere c =>
    match st.builders[bid]? with
    | none => st
    | some qb =>
      { st with heap := (heapSet st.heap qb.wherePtr
          (heapGet st.heap qb.wherePtr ++ [c])) }
  | .addOrder c =>
    match st.builders[bid]? with
    | none => st
    | some qb =>
      { st with heap := (heapSet st.heap qb.orderPtr
          (heapGet st.heap qb.orderPtr ++ [c])) }
  | .setLimit n =>
    match st.builders[bid]? with
    | none => st
    | some qb =>
      { st with builders := st.builders.set bid { qb with limit := some n } }
  | .unscope =>
    match st.builders[bid]? with
    | none => st
    | some qb =>
      { st with builders :=
          (st.builders.set bid { qb with unscoped := true }) }
  | .terminal =>
    match st.builders[bid]? with
    | none => st
    | some qb =>
      { heap := heapSet (heapSet st.heap qb.wherePtr []) qb.orderPtr [],
        builders := st.builders.set bid
          { qb with limit := none, unscoped := false } }

/-- A sequence of builder calls against one builder. -/
def applyOps (st : Store) (bid : Nat) (ops : List QBOp) : Store :=
  ops.foldl (fun s op => applyOp s bid op) st

/-- Modelled from the spec: pure compilation of accumulated clause state —
conjunctive where clauses, the implicit soft-delete exclusion unless
unscoped, the order-by list, the limit, and the bound arguments in clause
order. -/
def compile (wheres orders : List Clause) (limit : Option Nat)
    (unscoped : Bool) : String × List Nat :=
  let scopeCond := if unscoped then [] else ["deleted_at IS NULL"]
  let condTexts := wheres.map (fun c => c.cond) ++ scopeCond
  let whereSql := if condTexts.isEmpty then ""
    else " WHERE " ++ String.intercalate " AND " condTexts
  let orderSql := if orders.isEmpty then ""
    else " ORDER BY " ++
      String.intercalate ", " (orders.map (fun c => c.cond))
  let limitSql :=
    match limit with
    | none => ""
    | some n => " LIMIT " ++ toString n
  ("SELECT *" ++ whereSql ++ orderSql ++ limitSql,
   (wheres.map (fun c => c.args)).flatten)

/-- Modelled from the spec: `ToSQL` — compiles the builder's accumulated
clause state without executing and without mutating state. -/
def toSQL (st : Store) (bid : Nat) : Option (String × List Nat) :=
  match st.builders[bid]? with
  | none => none
  | some qb =>
    some (compile (heapGet st.heap qb.wherePtr)
      (heapGet st.heap qb.orderPtr) qb.limit qb.unscoped)

/-- Writing one heap cell leaves every other cell unchanged. -/
lemma heapGet_set_ne {i j : Nat} (h : List (List Clause))
    (v : List Clause) (hij : i ≠ j) :
    heapGet (heapSet h i v) j = heapGet h j := by
  unfold heapGet heapSet
  rw [List.getElem?_set_ne hij]

/-- `toSQL` of a builder depends only on that builder's record and the
heap cells its pointers reference. -/
lemma toSQL_congr (st st' : Store) (bid : Nat) (qb : QBRef)
    (h : st.builders[bid]? = some qb)
    (h' : st'.builders[bid]? = some qb)
    (hw : heapGet st'.heap qb.wherePtr = heapGet st.heap qb.wherePtr)
    (ho : heapGet st'.heap qb.orderPtr = heapGet st.heap qb.orderPtr) :
    toSQL st' bid = toSQL st bid := by
  simp [toSQL, h, h', hw, ho]

/-- One call against builder `x` does not disturb builder `y` when their
records and clause slices are disjoint, and it never changes `x`'s own
slice pointers. -/
lemma applyOp_frame (st : Store) (x y : Nat) (qbx qby : QBRef) (op : QBOp)
    (hx : st.builders[x]? = some qbx) (hy : st.builders[y]? = some qby)
    (hxy : x ≠ y)
    (h1 : qbx.wherePtr ≠ qby.wherePtr) (h2 : qbx.wherePtr ≠ qby.orderPtr)
    (h3 : qbx.orderPtr ≠ qby.wherePtr) (h4 : qbx.orderPtr ≠ qby.orderPtr) :
    (applyOp st x op).builders[y]? = some qby ∧
    heapGet (applyOp st x op).heap qby.wherePtr =
      heapGet st.heap qby.wherePtr ∧
    heapGet (applyOp st x op).heap qby.orderPtr =
      heapGet st.heap qby.orderPtr ∧
    ∃ qbx', (applyOp st x op).builders[x]? = some qbx' ∧
      qbx'.wherePtr = qbx.wherePtr ∧ qbx'.orderPtr = qbx.orderPtr := by
  have hxlt : x < st.builders.length := (List.getElem?_eq_some.mp hx).1
  cases op with
  | addWhere c =>
    have hstep : applyOp st x (.addWhere c) =
        { st with heap := (heapSet st.heap qbx.wherePtr
            (heapGet st.heap qbx.wherePtr ++ [c])) } := by
      simp [applyOp, hx]
    rw [hstep]
    exact ⟨hy, heapGet_set_ne _ _ h1, heapGet_set_ne _ _ h2,
      qbx, hx, rfl, rfl⟩
  | addOrder c =>
    have hstep : applyOp st x (.addOrder c) =
        { st with heap := (heapSet st.heap qbx.orderPtr
            (heapGet st.heap qbx.orderPtr ++ [c])) } := by
      simp [applyOp, hx]
    rw [hstep]
    exact ⟨hy, heapGet_set_ne _ _ h3, heapGet_set_ne _ _ h4,
      qbx, hx, rfl, rfl⟩
  | setLimit n =>
    have hstep : applyOp st x (.setLimit n) =
        { st with builders :=
            (st.builders.set x { qbx with limit := some n }) } := by
      simp [applyOp, hx]
    rw [hstep]
    refine ⟨?_, rfl, rfl, { qbx with limit := some n }, ?_, rfl, rfl⟩
    · show (st.builders.set x { qbx with limit := some n })[y]? = some qby
      rw [List.getElem?_set_ne hxy]
      exact hy
    · show (st.builders.set x { qbx with limit := some n })[x]? =
        some { qbx with limit := some n }
      rw [List.getElem?_set_self hxlt]
  | unscope =>
    have hstep : applyOp st x .unscope =
        { st with builders :=
            (st.builders.set x { qbx with unscoped := true }) } := by
      simp [applyOp, hx]
    rw [hstep]
    refine ⟨?_, rfl, rfl, { qbx with unscoped := true }, ?_, rfl, rfl⟩
    · show (st.builders.set x { qbx with unscoped := true })[y]? = some qby
      rw [List.getElem?_set_ne hxy]
      exact hy
    · show (st.builders.set x { qbx with unscoped := true })[x]? =
        some { qbx with unscoped := true }
      rw [List.getElem?_set_self hxlt]
  | terminal =>
    have hstep : applyOp st x .terminal =
        { heap := heapSet (heapSet st.heap qbx.wherePtr []) qbx.orderPtr [],
          builders := st.builders.set x
            { qbx with limit := none, unscoped := false } } := by
      simp [applyOp, hx]
    rw [hstep]
    refine ⟨?_, ?_, ?_,
      { qbx with limit := none, unscoped := false }, ?_, rfl, rfl⟩
    · show (st.builders.set x
          { qbx with limit := none, unscoped := false })[y]? = some qby
      rw [List.getElem?_set_ne hxy]
      exact hy
    · show heapGet (heapSet (heapSet st.heap qbx.wherePtr [])
          qbx.orderPtr []) qby.wherePtr = heapGet st.heap qby.wherePtr
      rw [heapGet_set_ne _ _ h3, heapGet_set_ne _ _ h1]
    · show heapGet (heapSet (heapSet st.heap qbx.wherePtr [])
          qbx.orderPtr []) qby.orderPtr = heapGet st.heap qby.orderPtr
      rw [heapGet_set_ne _ _ h4, heapGet_set_ne _ _ h2]
    · show (st.builders.set x
          { qbx with limit := none, unscoped := false })[x]? =
        some { qbx with limit := none, unscoped := false }
      rw [List.getElem?_set_self hxlt]

/-- A whole call sequence against builder `x` leaves builder `y`'s record
and clause slices untouched. -/
lemma applyOps_frame (ops : List QBOp) :
    ∀ (st : Store) (x y : Nat) (qbx qby : QBRef),
      st.builders[x]? = some qbx → st.builders[y]? = some qby → x ≠ y →
      qbx.wherePtr ≠ qby.wherePtr → qbx.wherePtr ≠ qby.orderPtr →
      qbx.orderPtr ≠ qby.wherePtr → qbx.orderPtr ≠ qby.orderPtr →
      (applyOps st x ops).builders[y]? = some qby ∧
      heapGet (applyOps st x ops).heap qby.wherePtr =
        heapGet st.heap qby.wherePtr ∧
      heapGet (applyOps st x ops).heap qby.orderPtr =
        heapGet st.heap qby.orderPtr := by
  induction ops with
  | nil =>
    intro st x y qbx qby hx hy hxy h1 h2 h3 h4
    exact ⟨hy, rfl, rfl⟩
  | cons op rest ih =>
    intro st x y qbx qby hx hy hxy h1 h2 h3 h4
    rcases applyOp_frame st x y qbx qby op hx hy hxy h1 h2 h3 h4 with
      ⟨hy1, hw1, ho1, qbx', hx1, hwp, hop⟩
    have hrest := ih (applyOp st x op) x y qbx' qby hx1 hy1 hxy
      (by rw [hwp]; exact h1) (by rw [hwp]; exact h2)
      (by rw [hop]; exact h3) (by rw [hop]; exact h4)
    have hstep : applyOps st x (op :: rest) =
        applyOps (applyOp st x op) x rest := rfl
    rw [hstep]
    exact ⟨hrest.1, hrest.2.1.trans hw1, hrest.2.2.trans ho1⟩

/-- C7: `Clone` yields a fully independent builder — after cloning `a`
into `b`, any sequence of clause additions, scalar updates or terminal
operations applied to `a` leaves `b`'s compiled `ToSQL` output unchanged,
and vice versa. -/
theorem builder_clone_isolation (st : Store) (a : Nat) (qb : QBRef)
    (hga : st.builders[a]? = some qb)
    (hw : qb.wherePtr < st.heap.length)
    (ho : qb.orderPtr < st.heap.length)
    (ops : List QBOp) :
    toSQL (applyOps (cloneBuilder st a).1 a ops) (cloneBuilder st a).2 =
      toSQL (cloneBuilder st a).1 (cloneBuilder st a).2 ∧
    toSQL (applyOps (cloneBuilder st a).1 (cloneBuilder st a).2 ops) a =
      toSQL (cloneBuilder st a).1 a := by
  have halt : a < st.builders.length := (List.getElem?_eq_some.mp hga).1
  have hane : a ≠ st.builders.length := Nat.ne_of_lt halt
  have hb : (cloneBuilder st a).2 = st.builders.length := by
    simp [cloneBuilder, hga]
  have h1 : (cloneBuilder st a).1.builders[a]? = some qb := by
    simp only [cloneBuilder, hga]
    rw [List.getElem?_append_left halt]
    exact hga
  have h2 : (cloneBuilder st a).1.builders[st.builders.length]? =
      some (cloneRef st qb) := by
    simp only [cloneBuilder, hga]
    exact List.getElem?_concat_length _ _
  constructor
  · rcases applyOps_frame ops (cloneBuilder st a).1 a st.builders.length qb
        (cloneRef st qb) h1 h2 hane (by simp [cloneRef]; omega)
        (by simp [cloneRef]; omega) (by simp [cloneRef]; omega)
        (by simp [cloneRef]; omega) with ⟨hgy, hwy, hoy⟩
    rw [hb]
    exact toSQL_congr (cloneBuilder st a).1
      (applyOps (cloneBuilder st a).1 a ops) st.builders.length _ h2 hgy
      hwy hoy
  · rcases applyOps_frame ops (cloneBuilder st a).1 st.builders.length a
        (cloneRef st qb) qb h2 h1 (Ne.symm hane)
        (by simp [cloneRef]; omega) (by simp [cloneRef]; omega)
        (by simp [cloneRef]; omega) (by simp [cloneRef]; omega)
        with ⟨hgy, hwy, hoy⟩
    rw [hb]
    exact toSQL_congr (cloneBuilder st a).1
      (applyOps (cloneBuilder st a).1 st.builders.length ops) a _ h1 hgy
      hwy hoy

/-- Witness for C7: a one-builder store with one where clause; adding a
clause to the original and terminating it leaves the clone's compiled
output unchanged, and vice versa. -/
theorem builder_clone_isolation_witness :
    toSQL (applyOps
        (cloneBuilder ⟨[[⟨"x = ?", [1]⟩], []], [⟨0, 1, none, false⟩]⟩ 0).1 0
        [.addWhere ⟨"y = ?", [2]⟩, .terminal])
      (cloneBuilder ⟨[[⟨"x = ?", [1]⟩], []], [⟨0, 1, none, false⟩]⟩ 0).2 =
    toSQL (cloneBuilder ⟨[[⟨"x = ?", [1]⟩], []], [⟨0, 1, none, false⟩]⟩ 0).1
      (cloneBuilder ⟨[[⟨"x = ?", [1]⟩], []], [⟨0, 1, none, false⟩]⟩ 0).2 ∧
    toSQL (applyOps
        (cloneBuilder ⟨[[⟨"x = ?", [1]⟩], []], [⟨0, 1, none, false⟩]⟩ 0).1
        (cloneBuilder ⟨[[⟨"x = ?", [1]⟩], []], [⟨0, 1, none, false⟩]⟩ 0).2
        [.addWhere ⟨"y = ?", [2]⟩, .terminal]) 0 =
    toSQL (cloneBuilder ⟨[[⟨"x = ?", [1]⟩], []], [⟨0, 1, none, false⟩]⟩ 0).1
      0 :=
  builder_clone_isolation
    ⟨[[⟨"x = ?", [1]⟩], []], [⟨0, 1, none, false⟩]⟩ 0 ⟨0, 1, none, false⟩
    (by rfl) (by decide) (by decide) [.addWhere ⟨"y = ?", [2]⟩, .terminal]

/-- A call against the builder surface, including the diagnostic
`ToSQL`. -/
inductive QBCall where
  | mut (o : QBOp)
  | tosql
deriving DecidableEq, Repr

/-- Modelled from the spec: running one builder call against the engine
boundary.  Mutating calls update the store; a terminal operation also
sends its compiled statement to the engine (the `List String` component
is the trace of engine invocations).  `ToSQL` "compiles without executing
and without mutating state". -/
def runCall (st : Store) (bid : Nat) :
    QBCall → Store × List String × Option (String × List Nat)
  | .mut o =>
    (applyOp st bid o,
     (match o, st.builders[bid]? with
      | .terminal, some qb =>
        [(compile (heapGet st.heap qb.wherePtr) (heapGet st.heap qb.orderPtr)
          qb.limit qb.unscoped).1]
      | _, _ => []),
     none)
  | .tosql => (st, [], toSQL st bid)

/-- C8: `ToSQL` is pure — it leaves the store exactly as it was, sends
nothing to the engine, returns the compilation of the builder's
accumulated clause state, gives the same result when repeated, and
changes no builder's compiled output. -/
theorem tosql_pure (st : Store) (bid : Nat) :
    (runCall st bid .tosql).1 = st ∧
    (runCall st bid .tosql).2.1 = [] ∧
    (runCall st bid .tosql).2.2 = toSQL st bid ∧
    (runCall (runCall st bid .tosql).1 bid .tosql).2.2 =
      (runCall st bid .tosql).2.2 ∧
    (∀ bid', toSQL (runCall st bid .tosql).1 bid' = toSQL st bid') :=
  ⟨rfl, rfl, rfl, rfl, fun _ => rfl⟩

/-- A closable handle: whether it has been released, and whether its
release reports a failure. -/
structure Handle where
  closed : Bool
  failOnClose : Bool
deriving DecidableEq, Repr

/-- Releasing a handle always marks it closed; its error is its own. -/
def closeHandle (h : Handle) : Handle × Option Err :=
  ({ h with closed := true },
   if h.failOnClose then some .closeFailed else none)

/-- The migrator's two independent failure domains: the migration-source
handle and the underlying database connection. -/
structure MigCloser where
  src : Handle
  db : Handle
deriving DecidableEq, Repr

/-- Modelled from the spec: `Migrator.Close` "releases the
migration-source handle and the underlying connection independently,
returning both errors separately since either may fail without implying
the other did". -/
def migClose (m : MigCloser) : MigCloser × (Option Err × Option Err) :=
  let s := closeHandle m.src
  let d := closeHandle m.db
  ({ src := s.1, db := d.1 }, (s.2, d.2))

/-- C9: `Migrator.Close` releases both handles (the connection is closed
even when the source close fails and vice versa), returns the two errors
as separate values — each one exactly its own handle's close result,
depending only on that handle — and every combination of the two
failures is reported faithfully, never merged. -/
theorem migrator_close_independent (m : MigCloser) :
    (migClose m).1.src.closed = true ∧
    (migClose m).1.db.closed = true ∧
    (migClose m).2.1 = (closeHandle m.src).2 ∧
    (migClose m).2.2 = (closeHandle m.db).2 ∧
    (∀ m' : MigCloser, m'.src = m.src →
      (migClose m').2.1 = (migClose m).2.1) ∧
    (∀ m' : MigCloser, m'.db = m.db →
      (migClose m').2.2 = (migClose m).2.2) ∧
    (∀ b1 b2 : Bool,
      (migClose ⟨⟨false, b1⟩, ⟨false, b2⟩⟩).2 =
        ((if b1 then some .closeFailed else none),
         (if b2 then some .closeFailed else none))) := by
  refine ⟨rfl, rfl, rfl, rfl, ?_, ?_, ?_⟩
  · intro m' h
    simp [migClose, closeHandle, h]
  · intro m' h
    simp [migClose, closeHandle, h]
  · intro b1 b2
    rfl

/-- Witness for C9: a source handle that fails to close and a connection
that closes fine — both end up released and the two errors come back
separately. -/
theorem migrator_close_independent_witness :
    (migClose ⟨⟨false, true⟩, ⟨false, false⟩⟩).1.src.closed = true ∧
    (migClose ⟨⟨false, true⟩, ⟨false, false⟩⟩).1.db.closed = true ∧
    (migClose ⟨⟨false, true⟩, ⟨false, false⟩⟩).2.1 =
      (closeHandle ⟨false, true⟩).2 ∧
    (migClose ⟨⟨false, true⟩, ⟨false, false⟩⟩).2.2 =
      (closeHandle ⟨false, false⟩).2 ∧
    (migClose ⟨⟨false, true⟩, ⟨true, true⟩⟩).2.1 =
      (migClose ⟨⟨false, true⟩, ⟨false, false⟩⟩).2.1 ∧
    (migClose ⟨⟨true, false⟩, ⟨false, false⟩⟩).2.2 =
      (migClose ⟨⟨false, true⟩, ⟨false, false⟩⟩).2.2 ∧
    (migClose ⟨⟨false, true⟩, ⟨false, false⟩⟩).2 =
      (some .closeFailed, none) := by
  have h := migrator_close_independent ⟨⟨false, true⟩, ⟨false, false⟩⟩
  exact ⟨h.1, h.2.1, h.2.2.1, h.2.2.2.1,
    h.2.2.2.2.1 ⟨⟨false, true⟩, ⟨true, true⟩⟩ rfl,
    h.2.2.2.2.2.1 ⟨⟨true, false⟩, ⟨false, false⟩⟩ rfl,
    h.2.2.2.2.2.2 true false⟩

/-- The cache state: an association of keys to values. -/
def CacheState : Type := List (String × Nat)

/-- The value stored under a key, if any. -/
def cacheLookup (st : CacheState) (k : String) : Option Nat :=
  (List.find? (fun e => e.1 == k) st).map (fun e => e.2)

/-- `Cache.Get` as declared in src/contract/cache.go: it returns a value
and a presence Boolean — its signature has no error component at all; a
miss is reported as `false`, not as a failure. -/
def cacheGet (st : CacheState) (k : String) : Option Nat × Bool :=
  match cacheLookup st k with
  | some v => (some v, true)
  | none => (none, false)

/-- `Cache.Set` as declared in src/contract/cache.go: a mutating call
returning an error value (`none` on success). -/
def cacheSet (st : CacheState) (k : String) (v _ttl : Nat) :
    CacheState × Option Err :=
  ((k, v) :: List.filter (fun e => !(e.1 == k)) st, none)

/-- `Cache.Delete` as declared in src/contract/cache.go. -/
def cacheDelete (st : CacheState) (k : String) : CacheState × Option Err :=
  (List.filter (fun e => !(e.1 == k)) st, none)

/-- `Cache.Flush` as declared in src/contract/cache.go. -/
def cacheFlush (_st : CacheState) : CacheState × Option Err :=
  ([], none)

/-- The cache contract bundled exactly as the Go interface declares it:
`Get` yields a value-presence pair with no error position, while the
mutating operations each yield an error position. -/
structure CacheAPI where
  get : CacheState → String → Option Nat × Bool
  set : CacheState → String → Nat → Nat → CacheState × Option Err
  delete : CacheState → String → CacheState × Option Err
  flush : CacheState → CacheState × Option Err

/-- The model cache implementing the contract. -/
def listCache : CacheAPI :=
  { get := cacheGet, set := cacheSet, delete := cacheDelete,
    flush := cacheFlush }

/-- C10: `Cache.Get` signals absence by its Boolean second result, never
by an error — its result type carries no error position; the Boolean is
`false` exactly on a miss and `true` exactly when the key holds a value,
and the returned value is the stored one. -/
theorem cache_get_miss_is_boolean (st : CacheState) (k : String) :
    listCache.get st k = (cacheLookup st k, (cacheLookup st k).isSome) ∧
    ((listCache.get st k).2 = false ↔ cacheLookup st k = none) ∧
    ((listCache.get st k).2 = true ↔ ∃ v, cacheLookup st k = some v) := by
  refine ⟨?_, ?_, ?_⟩ <;>
    simp only [listCache, cacheGet] <;>
    cases h : cacheLookup st k <;> simp [h]

end SCG
